import Mathlib

/-!
Verification of the layered configuration resolver and of the Mozilla
authentication helpers of this repository.

The configuration resolver (`services.config.Config`) is exercised by
`src/services/tests/test_config.py`; its implementation module is not part of
the source tree, so the definitions in namespace `Config` are modelled from the
specification (each such definition says so in its doc comment).  The
authentication helpers in namespace `Mozilla` are embedded directly from
`src/services/auth/mozilla.py`.
-/

/-- Decidable equality of `Except` results, component-wise. -/
instance {ε α : Type} [DecidableEq ε] [DecidableEq α] : DecidableEq (Except ε α) :=
  fun a b =>
    match a, b with
    | .ok x, .ok y =>
        if h : x = y then .isTrue (congrArg Except.ok h)
        else .isFalse (fun hc => h (Except.ok.inj hc))
    | .error e, .error f =>
        if h : e = f then .isTrue (congrArg Except.error h)
        else .isFalse (fun hc => h (Except.error.inj hc))
    | .ok _, .error _ => .isFalse (fun hc => Except.noConfusion hc)
    | .error _, .ok _ => .isFalse (fun hc => Except.noConfusion hc)

namespace Config

/-- Modelled from the spec: a resolved scalar value is either an integer or a
string (spec section 4.1: integer, quoted string, or plain string). -/
inductive Scalar where
  | int (n : Int) : Scalar
  | str (s : String) : Scalar
deriving DecidableEq, Repr

/-- Modelled from the spec: a resolved value is a scalar or an ordered
sequence of scalars (one per physical line of a multi-line raw value). -/
inductive Value where
  | scalar (v : Scalar) : Value
  | seq (vs : List Scalar) : Value
deriving DecidableEq, Repr

/-- Modelled from the spec: a raw entry is raw text, a string or an ordered
sequence of strings for multi-line entries (spec section 3, Data model). -/
inductive RawValue where
  | single (s : String) : RawValue
  | multi (lines : List String) : RawValue
deriving DecidableEq, Repr

/-- Entries of one section: ordered mapping from raw key to raw text. -/
abbrev Entries := List (String × RawValue)

/-- Modelled from the spec: a raw section map, section name to entries. -/
abbrev RawConfig := List (String × Entries)

/-- Errors of the configuration engine (spec section 7, error taxonomy). -/
inductive ConfError where
  | ioError (name : String) : ConfError
  | depthExceeded : ConfError
  | keyNotFound (sec key : String) : ConfError
  | envNotFound (name : String) : ConfError
deriving DecidableEq, Repr

/-- First-match association lookup (dictionary lookup on an ordered map). -/
def alookup {α : Type} : List (String × α) → String → Option α
  | [], _ => none
  | (k, v) :: rest, key => if k = key then some v else alookup rest key

/-- Look up the entries of a section. -/
def lookupSec (cfg : RawConfig) (sec : String) : Option Entries :=
  alookup cfg sec

/-- Look up the raw value stored at a (section, key) pair. -/
def lookupRaw (cfg : RawConfig) (sec key : String) : Option RawValue :=
  match lookupSec cfg sec with
  | some es => alookup es key
  | none => none

/-- Replace the first binding of `k` in an entries list, or append it. -/
def setEntry : Entries → String → RawValue → Entries
  | [], k, v => [(k, v)]
  | (k', v') :: rest, k, v =>
      if k' = k then (k, v) :: rest else (k', v') :: setEntry rest k v

/-- Set one (section, key) pair in a raw section map: update the first
occurrence of the section in place, or append a new section at the end. -/
def setKey : RawConfig → String → String → RawValue → RawConfig
  | [], sec, k, v => [(sec, [(k, v)])]
  | (s', es) :: rest, sec, k, v =>
      if s' = sec then (s', setEntry es k v) :: rest
      else (s', es) :: setKey rest sec k v

/-- Fold every entry of one section of a higher-priority source on top of an
accumulated raw section map. -/
def mergeSectionInto (acc : RawConfig) (sec : String) (es : Entries) : RawConfig :=
  es.foldl (fun a p => setKey a sec p.1 p.2) acc

/-- Modelled from the spec: merge a higher-priority raw section map on top of
a lower-priority one; for any shared (section, key) pair, `high` wins (spec
section 4.3, merge order). -/
def mergeConfig (low high : RawConfig) : RawConfig :=
  high.foldl (fun a p => mergeSectionInto a p.1 p.2) low

/-- Split a character list on commas. -/
def splitCommaAux : List Char → List Char → List (List Char)
  | [], cur => [cur.reverse]
  | ',' :: rest, cur => cur.reverse :: splitCommaAux rest []
  | c :: rest, cur => splitCommaAux rest (c :: cur)

/-- Drop surrounding whitespace from a character list. -/
def trimChars (l : List Char) : List Char :=
  (((l.dropWhile Char.isWhitespace).reverse.dropWhile Char.isWhitespace).reverse)

/-- Modelled from the spec: the parent list of a source is the `extends` entry
of the reserved `DEFAULT` section, split on commas and trimmed (spec section
4.3, Chain Resolver). -/
def parentsOf (cfg : RawConfig) : List String :=
  match lookupRaw cfg "DEFAULT" "extends" with
  | some (.single s) => (splitCommaAux s.data []).map (fun l => String.mk (trimChars l))
  | _ => []

/-- Modelled from the spec: fold the parent sources in the order listed,
aborting with an I/O-category error on the first parent that cannot be opened
(spec section 4.3). -/
def foldParents (res : RawConfig → Except ConfError RawConfig)
    (fs : String → Option RawConfig) :
    List String → RawConfig → Except ConfError RawConfig
  | [], acc => .ok acc
  | n :: rest, acc =>
      match fs n with
      | none => .error (.ioError n)
      | some p =>
          match res p with
          | .error e => .error e
          | .ok pr => foldParents res fs rest (mergeConfig acc pr)

/-- Modelled from the spec: depth-first resolution of the inheritance chain,
parents folded in listed order beneath the requesting source's own sections.
`fuel` bounds the recursion depth (the spec leaves cyclic chains open). -/
def resolveChain (fs : String → Option RawConfig) :
    Nat → RawConfig → Except ConfError RawConfig
  | 0, _ => .error .depthExceeded
  | fuel + 1, cfg =>
      match foldParents (resolveChain fs fuel) fs (parentsOf cfg) [] with
      | .error e => .error e
      | .ok base => .ok (mergeConfig base cfg)

/-- Accumulate the digits of a base-10 numeral; `none` on a non-digit. -/
def parseDigitsAux : List Char → Nat → Option Nat
  | [], acc => some acc
  | c :: rest, acc =>
      if c.isDigit then parseDigitsAux rest (10 * acc + (c.toNat - 48))
      else none

/-- Parse a nonempty all-digit character list as a natural number. -/
def parseDigits? : List Char → Option Nat
  | [] => none
  | l => parseDigitsAux l 0

/-- Modelled from the spec: parse a token as a base-10 integer with an
optional leading sign and no decimal point (spec section 4.1). -/
def parseInt? (s : String) : Option Int :=
  match s.data with
  | [] => none
  | c :: rest =>
      if c = '-' then (parseDigits? rest).map (fun n => -(n : Int))
      else if c = '+' then (parseDigits? rest).map (fun n => (n : Int))
      else (parseDigits? (c :: rest)).map (fun n => (n : Int))

/-- A quote delimiter character: double or single quote. -/
def isQuoteChar (c : Char) : Prop := c = '"' ∨ c = '\''

instance (c : Char) : Decidable (isQuoteChar c) := by
  unfold isQuoteChar; infer_instance

/-- Modelled from the spec: coerce one raw text token into a typed scalar —
integer if it parses as one, quote-stripped text if delimited by a matching
pair of quote characters, otherwise the text unchanged (spec section 4.1). -/
def coerceToken (s : String) : Scalar :=
  match parseInt? s with
  | some n => .int n
  | none =>
      match s.data with
      | [] => .str s
      | c :: rest =>
          if isQuoteChar c ∧ rest ≠ [] ∧ rest.getLast? = some c then
            .str (String.mk rest.dropLast)
          else .str s

/-- Modelled from the spec: a single-line raw value is coerced as one token; a
multi-line raw value is coerced line by line into an ordered sequence (spec
section 4.1). -/
def coerceRaw : RawValue → Value
  | .single s => .scalar (coerceToken s)
  | .multi lines => .seq (lines.map coerceToken)

/-- Modelled from the spec: scan a character list for placeholders of the form
`$\x7bNAME\x7d` and substitute the value of `NAME` in the injected environment
`env`, failing when the variable is unset (spec section 4.4).  `fuel` is the
length of the scanned text; every step consumes at least one character, so the
fuel never runs out on the initial call. -/
def interpAux (env : String → Option String) :
    Nat → List Char → Except ConfError (List Char)
  | _, [] => .ok []
  | 0, l => .ok l
  | fuel + 1, '$' :: '{' :: rest =>
      match rest.dropWhile (fun c => c ≠ '}') with
      | '}' :: rest2 =>
          match env (String.mk (rest.takeWhile (fun c => c ≠ '}'))) with
          | some v => (interpAux env fuel rest2).map (fun t => v.data ++ t)
          | none =>
              .error (.envNotFound (String.mk (rest.takeWhile (fun c => c ≠ '}'))))
      | _ => (interpAux env fuel ('{' :: rest)).map (fun t => '$' :: t)
  | fuel + 1, c :: rest => (interpAux env fuel rest).map (fun t => c :: t)

/-- Interpolate environment placeholders in one string. -/
def interpolate (env : String → Option String) (s : String) :
    Except ConfError String :=
  (interpAux env s.data.length s.data).map String.mk

/-- Interpolate one scalar: integers are untouched, strings are scanned. -/
def resolveScalar (env : String → Option String) :
    Scalar → Except ConfError Scalar
  | .int n => .ok (.int n)
  | .str s => (interpolate env s).map .str

/-- Interpolate a resolved value, scalar or sequence. -/
def resolveValue (env : String → Option String) :
    Value → Except ConfError Value
  | .scalar v => (resolveScalar env v).map .scalar
  | .seq vs => (vs.mapM (resolveScalar env)).map .seq

/-- Modelled from the spec: `get(section, key)` looks up the raw entry of the
merged mapping, fails with a not-found error when absent, and otherwise
applies the Value Coercer followed by environment interpolation, recomputed on
every call from the injected environment (spec section 4.4). -/
def get (env : String → Option String) (cfg : RawConfig) (sec key : String) :
    Except ConfError Value :=
  match lookupRaw cfg sec key with
  | none => .error (.keyNotFound sec key)
  | some rv => resolveValue env (coerceRaw rv)

/-- Resolve every entry of one section, naming each result through `keyFn`. -/
def resolveEntries (env : String → Option String) (keyFn : String → String)
    (es : Entries) : Except ConfError (List (String × Value)) :=
  es.mapM (fun p => (resolveValue env (coerceRaw p.2)).map (fun v => (keyFn p.1, v)))

/-- Modelled from the spec: `get_map()` without a section argument returns a
flattened mapping keyed by `"section.key"` for every resolved pair, with the
same coercion and interpolation as `get` (spec section 4.4). -/
def get_map (env : String → Option String) (cfg : RawConfig) :
    Except ConfError (List (String × Value)) :=
  (cfg.mapM (fun p => resolveEntries env (fun k => p.1 ++ "." ++ k) p.2)).map
    List.flatten

/-- Modelled from the spec: `get_map(section)` returns the mapping of plain
key to resolved value restricted to that section (spec section 4.4). -/
def get_map_section (env : String → Option String) (cfg : RawConfig)
    (sec : String) : Except ConfError (List (String × Value)) :=
  resolveEntries env (fun k => k) ((lookupSec cfg sec).getD [])

/-- A well-formed raw section map: section names are distinct, and within each
section the keys are distinct (parsed sources always satisfy this, a text
parser keeps one binding per name). -/
def WFConfig (cfg : RawConfig) : Prop :=
  (cfg.map Prod.fst).Nodup ∧ ∀ p ∈ cfg, (p.2.map Prod.fst).Nodup

instance (cfg : RawConfig) : Decidable (WFConfig cfg) := by
  unfold WFConfig; infer_instance

/-- All (section, key) pairs of a raw section map, in source order. -/
def dottedPairs (cfg : RawConfig) : List (String × String) :=
  cfg.flatMap (fun p => p.2.map (fun q => (p.1, q.1)))

/-- Transcription of `_FILE_ONE` of `test_config.py` as a raw section map
(with the temporary parent file named `file_two`). -/
def fileOne : RawConfig :=
  [("DEFAULT", [("extends", .single "file_two")]),
   ("one",
    [("foo", .single "bar"),
     ("num", .single "-12"),
     ("st", .single "\"o=k\""),
     ("lines", .multi ["1", "two", "3"]),
     ("env", .single "some ${__STUFF__}")]),
   ("two", [("a", .single "b")])]

/-- Transcription of `_FILE_TWO` of `test_config.py` as a raw section map. -/
def fileTwo : RawConfig :=
  [("one", [("foo", .single "baz"), ("two", .single "\"a\"")]),
   ("three", [("more", .single "stuff")])]

/-- Transcription of `_FILE_THREE` of `test_config.py`: its `extends` list
names four sources that do not exist. -/
def fileThree : RawConfig :=
  [("DEFAULT",
    [("extends", .single "no-no,no-no-no-no,no-no-no-no,theresnolimit")]),
   ("one", [("foo", .single "bar")])]

/-- The reachable sources of the test fixture: only `file_two` exists. -/
def fsTest : String → Option RawConfig :=
  fun n => if n = "file_two" then some fileTwo else none

/-- The test environment with `__STUFF__` set to `stuff`. -/
def env1 : String → Option String :=
  fun n => if n = "__STUFF__" then some "stuff" else none

/-- The test environment after `__STUFF__` has been unset. -/
def envNone : String → Option String := fun _ => none

/-- The merged raw mapping of the configuration built from `fileOne`. -/
def mergedOne : RawConfig :=
  (resolveChain fsTest 3 fileOne).toOption.getD []

/-- Priority of a flat parent list: the value a (section, key) pair receives
from the parents alone, a later-listed parent overriding an earlier one. -/
def lookupChain (fs : String → Option RawConfig) :
    List String → String → String → Option RawValue
  | [], _, _ => none
  | n :: rest, s, k =>
      match lookupChain fs rest s k with
      | some v => some v
      | none =>
          match fs n with
          | some p => lookupRaw p s k
          | none => none

theorem alookup_eq_none {α : Type} (l : List (String × α)) (k : String)
    (h : k ∉ l.map Prod.fst) : alookup l k = none := by
  induction l with
  | nil => rfl
  | cons p rest ih =>
      obtain ⟨k₀, v₀⟩ := p
      simp only [List.map_cons, List.mem_cons] at h
      push_neg at h
      simp [alookup, Ne.symm h.1, ih h.2]

theorem lookupRaw_cons (s₀ : String) (es : Entries) (rest : RawConfig)
    (s' k' : String) :
    lookupRaw ((s₀, es) :: rest) s' k' =
      if s₀ = s' then alookup es k' else lookupRaw rest s' k' := by
  by_cases h : s₀ = s' <;> simp [lookupRaw, lookupSec, alookup, h]

theorem alookup_setEntry (es : Entries) (k : String) (v : RawValue)
    (k' : String) :
    alookup (setEntry es k v) k' = if k = k' then some v else alookup es k' := by
  induction es with
  | nil => simp [setEntry, alookup]
  | cons p rest ih =>
      obtain ⟨k₀, v₀⟩ := p
      simp only [setEntry]
      by_cases h : k₀ = k
      · subst h
        rw [if_pos rfl]
        by_cases h' : k₀ = k' <;> simp [alookup, h']
      · rw [if_neg h]
        by_cases h' : k₀ = k'
        · subst h'
          simp [alookup, Ne.symm h]
        · simp [alookup, h', ih]

theorem lookupRaw_setKey (cfg : RawConfig) (sec k : String) (v : RawValue)
    (s' k' : String) :
    lookupRaw (setKey cfg sec k v) s' k' =
      if sec = s' ∧ k = k' then some v else lookupRaw cfg s' k' := by
  induction cfg with
  | nil =>
      by_cases hs : sec = s' <;>
        by_cases hk : k = k' <;>
          simp [setKey, lookupRaw, lookupSec, alookup, hs, hk]
  | cons p rest ih =>
      obtain ⟨s₀, es₀⟩ := p
      simp only [setKey]
      by_cases h : s₀ = sec
      · subst h
        rw [if_pos rfl, lookupRaw_cons, lookupRaw_cons]
        by_cases hs : s₀ = s'
        · simp [hs, alookup_setEntry]
        · simp [hs]
      · rw [if_neg h, lookupRaw_cons, lookupRaw_cons]
        by_cases hs : s₀ = s'
        · subst hs
          have hns : ¬(sec = s₀ ∧ k = k') := fun hc => h hc.1.symm
          simp [hns]
        · simp [hs, ih]

theorem lookupRaw_mergeSectionInto (es : Entries) (acc : RawConfig)
    (sec : String) (hnd : (es.map Prod.fst).Nodup) (s' k' : String) :
    lookupRaw (mergeSectionInto acc sec es) s' k' =
      if sec = s' then
        match alookup es k' with
        | some v => some v
        | none => lookupRaw acc s' k'
      else lookupRaw acc s' k' := by
  induction es generalizing acc with
  | nil =>
      by_cases hs : sec = s' <;> simp [mergeSectionInto, alookup, hs]
  | cons p rest ih =>
      obtain ⟨k₀, v₀⟩ := p
      simp only [List.map_cons, List.nodup_cons] at hnd
      have hstep : mergeSectionInto acc sec ((k₀, v₀) :: rest) =
          mergeSectionInto (setKey acc sec k₀ v₀) sec rest := rfl
      rw [hstep, ih (setKey acc sec k₀ v₀) hnd.2]
      by_cases hs : sec = s'
      · subst hs
        by_cases hk : k₀ = k'
        · subst hk
          have : alookup rest k₀ = none :=
            alookup_eq_none rest k₀ hnd.1
          simp [alookup, this, lookupRaw_setKey]
        · cases hrest : alookup rest k' with
          | some v => simp [alookup, hk, hrest]
          | none => simp [alookup, hk, hrest, lookupRaw_setKey]
      · simp [hs, lookupRaw_setKey]

theorem lookupRaw_mergeConfig (high : RawConfig) (low : RawConfig)
    (hwf : WFConfig high) (s' k' : String) :
    lookupRaw (mergeConfig low high) s' k' =
      match lookupRaw high s' k' with
      | some v => some v
      | none => lookupRaw low s' k' := by
  induction high generalizing low with
  | nil => simp [mergeConfig, lookupRaw, lookupSec, alookup]
  | cons p rest ih =>
      obtain ⟨sec, es⟩ := p
      obtain ⟨hsecs, hkeys⟩ := hwf
      simp only [List.map_cons, List.nodup_cons] at hsecs
      have hwf' : WFConfig rest :=
        ⟨hsecs.2, fun q hq => hkeys q (List.mem_cons_of_mem _ hq)⟩
      have hES : (es.map Prod.fst).Nodup := hkeys (sec, es) (List.mem_cons_self _ _)
      have hstep : mergeConfig low ((sec, es) :: rest) =
          mergeConfig (mergeSectionInto low sec es) rest := rfl
      rw [hstep, ih (mergeSectionInto low sec es) hwf']
      rw [lookupRaw_cons]
      by_cases hs : sec = s'
      · subst hs
        have hrest : lookupRaw rest sec k' = none := by
          unfold lookupRaw lookupSec
          rw [alookup_eq_none rest sec hsecs.1]
        rw [hrest, lookupRaw_mergeSectionInto es low sec hES]
        cases h' : alookup es k' <;> simp [h']
      · cases hr : lookupRaw rest s' k' with
        | some v => simp [hs, hr]
        | none =>
            simp [hs, hr, lookupRaw_mergeSectionInto es low sec hES]

theorem mem_keys_setEntry (es : Entries) (k : String) (v : RawValue)
    (x : String) :
    x ∈ (setEntry es k v).map Prod.fst ↔ x ∈ es.map Prod.fst ∨ x = k := by
  induction es with
  | nil => simp [setEntry]
  | cons p rest ih =>
      obtain ⟨k₀, v₀⟩ := p
      by_cases h : k₀ = k
      · subst h
        simp [setEntry]
        tauto
      · simp [setEntry, h, ih]
        tauto

theorem nodup_keys_setEntry (es : Entries) (k : String) (v : RawValue)
    (hnd : (es.map Prod.fst).Nodup) : ((setEntry es k v).map Prod.fst).Nodup := by
  induction es with
  | nil => simp [setEntry]
  | cons p rest ih =>
      obtain ⟨k₀, v₀⟩ := p
      simp only [List.map_cons, List.nodup_cons] at hnd
      by_cases h : k₀ = k
      · subst h
        simp [setEntry, hnd.1, hnd.2]
      · simp only [setEntry, if_neg h, List.map_cons, List.nodup_cons]
        refine ⟨fun hc => ?_, ih hnd.2⟩
        rcases (mem_keys_setEntry rest k v k₀).mp hc with hm | he
        · exact hnd.1 hm
        · exact h he

theorem mem_secs_setKey (cfg : RawConfig) (sec k : String) (v : RawValue)
    (x : String) :
    x ∈ (setKey cfg sec k v).map Prod.fst ↔ x ∈ cfg.map Prod.fst ∨ x = sec := by
  induction cfg with
  | nil => simp [setKey]
  | cons p rest ih =>
      obtain ⟨s₀, es₀⟩ := p
      by_cases h : s₀ = sec
      · subst h
        simp [setKey]
        tauto
      · simp [setKey, h, ih]
        tauto

theorem WF_setKey (cfg : RawConfig) (sec k : String) (v : RawValue)
    (hwf : WFConfig cfg) : WFConfig (setKey cfg sec k v) := by
  induction cfg with
  | nil =>
      constructor
      · simp [setKey]
      · intro p hp
        simp [setKey] at hp
        subst hp
        simp
  | cons q rest ih =>
      obtain ⟨s₀, es₀⟩ := q
      obtain ⟨hsecs, hkeys⟩ := hwf
      simp only [List.map_cons, List.nodup_cons] at hsecs
      have hwfrest : WFConfig rest :=
        ⟨hsecs.2, fun p hp => hkeys p (List.mem_cons_of_mem _ hp)⟩
      by_cases h : s₀ = sec
      · subst h
        constructor
        · simpa [setKey] using hsecs
        · intro p hp
          simp only [setKey, ite_true, eq_self_iff_true, List.mem_cons] at hp
          rcases hp with hp | hp
          · subst hp
            exact nodup_keys_setEntry es₀ k v
              (hkeys (s₀, es₀) (List.mem_cons_self _ _))
          · exact hkeys p (List.mem_cons_of_mem _ hp)
      · obtain ⟨ihsecs, ihkeys⟩ := ih hwfrest
        constructor
        · simp only [setKey, if_neg h, List.map_cons, List.nodup_cons]
          refine ⟨fun hc => ?_, ihsecs⟩
          rcases (mem_secs_setKey rest sec k v s₀).mp hc with hm | he
          · exact hsecs.1 hm
          · exact h he
        · intro p hp
          simp only [setKey, if_neg h, List.mem_cons] at hp
          rcases hp with hp | hp
          · subst hp
            exact hkeys (s₀, es₀) (List.mem_cons_self _ _)
          · exact ihkeys p hp

theorem WF_mergeSectionInto (es : Entries) (acc : RawConfig) (sec : String)
    (hwf : WFConfig acc) : WFConfig (mergeSectionInto acc sec es) := by
  induction es generalizing acc with
  | nil => exact hwf
  | cons p rest ih =>
      obtain ⟨k₀, v₀⟩ := p
      exact ih (setKey acc sec k₀ v₀) (WF_setKey acc sec k₀ v₀ hwf)

theorem WF_mergeConfig (high low : RawConfig) (hwf : WFConfig low) :
    WFConfig (mergeConfig low high) := by
  induction high generalizing low with
  | nil => exact hwf
  | cons p rest ih =>
      obtain ⟨sec, es⟩ := p
      exact ih (mergeSectionInto low sec es) (WF_mergeSectionInto es low sec hwf)

theorem WF_nil : WFConfig [] := by simp [WFConfig]

/-- Whole behaviour of `foldParents` over a list of openable, parentless,
well-formed parents: it succeeds and the accumulated map answers lookups with
the priority described by `lookupChain`, falling back to the accumulator. -/
theorem foldParents_leaf (fs : String → Option RawConfig) (f : Nat)
    (names : List String)
    (hp : ∀ n ∈ names, ∃ P, fs n = some P ∧ parentsOf P = [] ∧ WFConfig P) :
    ∀ acc, WFConfig acc →
      ∃ B, foldParents (resolveChain fs (f + 1)) fs names acc = .ok B ∧
        WFConfig B ∧
        ∀ s k, lookupRaw B s k =
          match lookupChain fs names s k with
          | some v => some v
          | none => lookupRaw acc s k := by
  induction names with
  | nil =>
      intro acc hacc
      exact ⟨acc, rfl, hacc, fun s k => by simp [lookupChain]⟩
  | cons n rest ih =>
      intro acc hacc
      obtain ⟨P, hfsn, hparP, hwfP⟩ := hp n (List.mem_cons_self _ _)
      have hres : resolveChain fs (f + 1) P = .ok (mergeConfig [] P) := by
        simp [resolveChain, hparP, foldParents]
      have hstep : foldParents (resolveChain fs (f + 1)) fs (n :: rest) acc =
          foldParents (resolveChain fs (f + 1)) fs rest
            (mergeConfig acc (mergeConfig [] P)) := by
        simp [foldParents, hfsn, hres]
      have hacc' : WFConfig (mergeConfig acc (mergeConfig [] P)) :=
        WF_mergeConfig _ acc hacc
      obtain ⟨B, hfold, hwfB, hlook⟩ :=
        ih (fun m hm => hp m (List.mem_cons_of_mem _ hm))
          (mergeConfig acc (mergeConfig [] P)) hacc'
      refine ⟨B, by rw [hstep, hfold], hwfB, fun s k => ?_⟩
      have hPmerge : ∀ s k, lookupRaw (mergeConfig [] P) s k = lookupRaw P s k := by
        intro s k
        rw [lookupRaw_mergeConfig P [] hwfP]
        cases lookupRaw P s k <;> simp [lookupRaw, lookupSec, alookup]
      have hacc'look : lookupRaw (mergeConfig acc (mergeConfig [] P)) s k =
          match lookupRaw P s k with
          | some v => some v
          | none => lookupRaw acc s k := by
        rw [lookupRaw_mergeConfig (mergeConfig [] P) acc
          (WF_mergeConfig P [] WF_nil), hPmerge]
      rw [hlook s k]
      simp only [lookupChain, hfsn]
      cases lookupChain fs rest s k <;> cases hP : lookupRaw P s k <;>
        simp [hacc'look, hP]

/-- If a parent named in the list cannot be opened, the fold over the parents
fails, whatever the accumulated configuration is. -/
theorem foldParents_mem_none (res : RawConfig → Except ConfError RawConfig)
    (fs : String → Option RawConfig) (l : List String) (n : String)
    (hmem : n ∈ l) (hn : fs n = none) :
    ∀ acc, ∃ e, foldParents res fs l acc = .error e := by
  induction l with
  | nil => cases hmem
  | cons m rest ih =>
      intro acc
      cases hm : fs m with
      | none => exact ⟨.ioError m, by simp [foldParents, hm]⟩
      | some p =>
          have hmem' : n ∈ rest := by
            rcases List.mem_cons.mp hmem with h | h
            · subst h
              rw [hm] at hn
              cases hn
            · exact h
          cases hres : res p with
          | error e => exact ⟨e, by simp [foldParents, hm, hres]⟩
          | ok pr =>
              obtain ⟨e, he⟩ := ih hmem' (mergeConfig acc pr)
              exact ⟨e, by simp [foldParents, hm, hres, he]⟩

/-- C1: for a configuration built from a source `A` whose extends directive
lists parent sources, resolution succeeds and every (section, key) pair is
answered with `A`'s own value when `A` sets it (the requesting source always
wins on shared keys), and otherwise with the parents' value, parents folded in
listed order with a later-listed parent overriding an earlier-listed one; in
particular a pair set only in a parent `B` is inherited with `B`'s value
unchanged. -/
theorem resolveChain_inherit (fs : String → Option RawConfig) (A : RawConfig)
    (names : List String) (f : Nat)
    (hA : parentsOf A = names) (hwfA : WFConfig A)
    (hp : ∀ n ∈ names, ∃ P, fs n = some P ∧ parentsOf P = [] ∧ WFConfig P)
    (s k : String) :
    (resolveChain fs (f + 2) A).map (fun M => lookupRaw M s k) =
      .ok (match lookupRaw A s k with
           | some v => some v
           | none => lookupChain fs names s k) := by
  obtain ⟨B, hfold, hwfB, hlook⟩ := foldParents_leaf fs f names hp [] WF_nil
  have hres : resolveChain fs (f + 2) A = .ok (mergeConfig B A) := by
    have hstep : resolveChain fs (f + 2) A =
        match foldParents (resolveChain fs (f + 1)) fs (parentsOf A) [] with
        | .error e => .error e
        | .ok base => .ok (mergeConfig base A) := rfl
    rw [hstep, hA, hfold]
  rw [hres]
  simp only [Except.map]
  congr 1
  rw [lookupRaw_mergeConfig A B hwfA, hlook s k]
  cases lookupRaw A s k <;> cases lookupChain fs names s k <;>
    simp [lookupRaw, lookupSec, alookup]

/-- Witness for C1: instantiated at the transcription of the test fixture
(`_FILE_ONE` extending `_FILE_TWO`), the pair set only in the parent is
inherited verbatim and the pair set in both resolves to the child's value. -/
theorem resolveChain_inherit_instance :
    (resolveChain fsTest 3 fileOne).map (fun M => lookupRaw M "three" "more") =
      .ok (some (RawValue.single "stuff")) ∧
    (resolveChain fsTest 3 fileOne).map (fun M => lookupRaw M "one" "foo") =
      .ok (some (RawValue.single "bar")) := by
  have hp : ∀ n ∈ ["file_two"],
      ∃ P, fsTest n = some P ∧ parentsOf P = [] ∧ WFConfig P := by
    intro n hn
    simp only [List.mem_singleton] at hn
    subst hn
    exact ⟨fileTwo, rfl, by decide, by decide⟩
  exact ⟨resolveChain_inherit fsTest fileOne ["file_two"] 1 (by decide)
      (by decide) hp "three" "more",
    resolveChain_inherit fsTest fileOne ["file_two"] 1 (by decide)
      (by decide) hp "one" "foo"⟩

/-- C2: if any parent named in a source's extends directive cannot be opened,
constructing the configuration fails (no merged mapping is ever produced, so
no section data becomes queryable), and when the unreachable parent is the
first one encountered during the walk the failure is exactly the I/O-category
error naming it. -/
theorem resolveChain_unreachable_parent (fs : String → Option RawConfig)
    (cfg : RawConfig) (n : String) (f : Nat)
    (hmem : n ∈ parentsOf cfg) (hn : fs n = none) :
    (∃ e, resolveChain fs f cfg = .error e) ∧
    ∀ ps, parentsOf cfg = n :: ps →
      resolveChain fs (f + 1) cfg = .error (.ioError n) := by
  constructor
  · cases f with
    | zero => exact ⟨.depthExceeded, rfl⟩
    | succ f' =>
        obtain ⟨e, he⟩ :=
          foldParents_mem_none (resolveChain fs f') fs (parentsOf cfg) n
            hmem hn []
        exact ⟨e, by simp [resolveChain, he]⟩
  · intro ps hps
    simp [resolveChain, hps, foldParents, hn]

/-- Witness for C2 on the transcription of `_FILE_THREE`, whose extends list
names four nonexistent sources: construction fails with the I/O error on the
first of them. -/
theorem resolveChain_unreachable_instance :
    resolveChain fsTest 3 fileThree = .error (.ioError "no-no") := by
  have h := resolveChain_unreachable_parent fsTest fileThree "no-no" 2
    (by decide) rfl
  exact h.2 ["no-no-no-no", "no-no-no-no", "theresnolimit"] (by decide)

/-- C3: interpolation happens on every `get` call against the environment of
that call, not once at construction: on the merged test configuration, the
key with raw value `some ${__STUFF__}` resolves to `some stuff` while the
variable is set, the same key fails with the environment-not-found error
once the variable is unset, and every other (section, key) pair of the same
configuration still succeeds with an unchanged value. -/
theorem get_env_interpolation_per_call :
    get env1 mergedOne "one" "env" = .ok (.scalar (.str "some stuff")) ∧
    get envNone mergedOne "one" "env" = .error (.envNotFound "__STUFF__") ∧
    ∀ p ∈ dottedPairs mergedOne, p ≠ ("one", "env") →
      get envNone mergedOne p.1 p.2 = get env1 mergedOne p.1 p.2 ∧
      (get envNone mergedOne p.1 p.2).toOption ≠ none :=
  ⟨rfl, rfl, by decide⟩

/-- Witness for C3 at the pair `(three, more)`: a key with no placeholder is
still retrievable, unchanged, after the environment variable disappears. -/
theorem get_env_interpolation_per_call_instance :
    get envNone mergedOne "three" "more" = get env1 mergedOne "three" "more" ∧
    (get envNone mergedOne "three" "more").toOption ≠ none :=
  get_env_interpolation_per_call.2.2 ("three", "more") (by decide) (by decide)

/-- C4: a multi-line raw value is not coerced as one token: each line is
coerced independently and the results are collected into an ordered sequence
in source order, so the three lines `1`, `two`, `3` of the test configuration
resolve to the ordered sequence of the integer 1, the string `two` and the
integer 3. -/
theorem get_multiline_sequence :
    get env1 mergedOne "one" "lines" =
      .ok (.seq (["1", "two", "3"].map coerceToken)) ∧
    ["1", "two", "3"].map coerceToken =
      [.int 1, .str "two", .int 3] :=
  ⟨rfl, rfl⟩

/-- A token that is a base-10 integer literal: an optional leading sign
followed by a nonempty run of digits and nothing else. -/
def IsIntLiteral (s : String) : Prop :=
  ∃ sgn ds, (sgn = ([] : List Char) ∨ sgn = ['-'] ∨ sgn = ['+']) ∧
    ds ≠ [] ∧ (∀ c ∈ ds, c.isDigit) ∧ s.data = sgn ++ ds

/-- Base-10 value of a digit run. -/
def digitsVal (ds : List Char) : Nat :=
  ds.foldl (fun a c => 10 * a + (c.toNat - 48)) 0

/-- Integer denoted by an integer literal token. -/
def intLitVal (s : String) : Int :=
  match s.data with
  | [] => 0
  | c :: rest =>
      if c = '-' then -(digitsVal rest : Int)
      else if c = '+' then (digitsVal rest : Int)
      else (digitsVal (c :: rest) : Int)

/-- A token delimited by a single pair of matching quote characters. -/
def IsQuotedLit (s : String) : Prop :=
  ∃ q mid, (q = '"' ∨ q = '\'') ∧ s.data = q :: mid ++ [q]

theorem parseDigitsAux_of_digits (l : List Char) (h : ∀ c ∈ l, c.isDigit) :
    ∀ a, parseDigitsAux l a =
      some (l.foldl (fun a c => 10 * a + (c.toNat - 48)) a) := by
  induction l with
  | nil => intro a; rfl
  | cons c rest ih =>
      intro a
      have hc : c.isDigit := h c (List.mem_cons_self _ _)
      simp only [parseDigitsAux, if_pos hc, List.foldl_cons]
      exact ih (fun d hd => h d (List.mem_cons_of_mem _ hd)) _

theorem parseDigitsAux_digits (l : List Char) :
    ∀ a n, parseDigitsAux l a = some n → ∀ c ∈ l, c.isDigit := by
  induction l with
  | nil => intro a n _ c hc; cases hc
  | cons c rest ih =>
      intro a n hsome d hd
      by_cases hc : c.isDigit
      · rcases List.mem_cons.mp hd with h | h
        · subst h; exact hc
        · simp only [parseDigitsAux, if_pos hc] at hsome
          exact ih _ _ hsome d h
      · simp [parseDigitsAux, hc] at hsome

theorem digit_not_sign (c : Char) (hc : c.isDigit) : c ≠ '-' ∧ c ≠ '+' := by
  constructor <;> intro h <;> subst h <;> simp [Char.isDigit] at hc

theorem parseDigits?_digits (l : List Char) (m : Nat)
    (h : parseDigits? l = some m) : l ≠ [] ∧ ∀ c ∈ l, c.isDigit := by
  cases l with
  | nil => simp [parseDigits?] at h
  | cons d ds =>
      have h' : parseDigitsAux (d :: ds) 0 = some m := h
      exact ⟨by simp, parseDigitsAux_digits _ _ _ h'⟩

theorem parseInt?_sound (s : String) (n : Int) (h : parseInt? s = some n) :
    IsIntLiteral s := by
  cases hd : s.data with
  | nil => simp [parseInt?, hd] at h
  | cons c rest =>
      simp only [parseInt?, hd] at h
      by_cases hm : c = '-'
      · rw [if_pos hm] at h
        cases hpd : parseDigits? rest with
        | none => rw [hpd] at h; simp at h
        | some m =>
            obtain ⟨hne, hdig⟩ := parseDigits?_digits rest m hpd
            subst hm
            exact ⟨['-'], rest, Or.inr (Or.inl rfl), hne, hdig, hd⟩
      · by_cases hp : c = '+'
        · rw [if_neg hm, if_pos hp] at h
          cases hpd : parseDigits? rest with
          | none => rw [hpd] at h; simp at h
          | some m =>
              obtain ⟨hne, hdig⟩ := parseDigits?_digits rest m hpd
              subst hp
              exact ⟨['+'], rest, Or.inr (Or.inr rfl), hne, hdig, hd⟩
        · rw [if_neg hm, if_neg hp] at h
          cases hpd : parseDigits? (c :: rest) with
          | none => rw [hpd] at h; simp at h
          | some m =>
              obtain ⟨hne, hdig⟩ := parseDigits?_digits _ m hpd
              exact ⟨[], c :: rest, Or.inl rfl, hne, hdig, by simpa using hd⟩

theorem parseInt?_complete (s : String) (h : IsIntLiteral s) :
    parseInt? s = some (intLitVal s) := by
  obtain ⟨sgn, ds, hsgn, hne, hdig, hdata⟩ := h
  cases ds with
  | nil => exact absurd rfl hne
  | cons d rest =>
      have hd : d.isDigit := hdig d (List.mem_cons_self _ _)
      have hds : parseDigits? (d :: rest) =
          some (digitsVal (d :: rest)) := by
        simp only [parseDigits?]
        exact parseDigitsAux_of_digits _ hdig 0
      rcases hsgn with h | h | h <;> subst h
      · simp only [List.nil_append] at hdata
        obtain ⟨hd1, hd2⟩ := digit_not_sign d hd
        simp [parseInt?, intLitVal, hdata, hd1, hd2, hds]
      · simp only [List.cons_append, List.nil_append] at hdata
        simp [parseInt?, intLitVal, hdata, hds]
      · simp only [List.cons_append, List.nil_append] at hdata
        simp [parseInt?, intLitVal, hdata, hds]

/-- C5: a raw token that is a base-10 integer literal (optional leading sign,
digits only, no decimal point) is coerced to the integer it denotes, and a
token that is neither an integer literal nor quote-delimited is returned
unchanged as a plain string. -/
theorem coerceToken_int_or_str (s : String) :
    (IsIntLiteral s → coerceToken s = .int (intLitVal s)) ∧
    (¬IsIntLiteral s → ¬IsQuotedLit s → coerceToken s = .str s) := by
  constructor
  · intro h
    simp [coerceToken, parseInt?_complete s h]
  · intro hni hnq
    cases hpi : parseInt? s with
    | some n => exact absurd (parseInt?_sound s n hpi) hni
    | none =>
        cases hd : s.data with
        | nil => simp [coerceToken, hpi, hd]
        | cons c rest =>
            have hcond : ¬(isQuoteChar c ∧ rest ≠ [] ∧ rest.getLast? = some c) := by
              rintro ⟨hq, hne, hlast⟩
              apply hnq
              refine ⟨c, rest.dropLast, hq, ?_⟩
              rw [hd]
              have hrest : rest.dropLast ++ [c] = rest := by
                have hlast' : rest.getLast hne = c := by
                  rw [List.getLast?_eq_getLast rest hne] at hlast
                  exact Option.some.inj hlast
                rw [← hlast']
                exact List.dropLast_append_getLast hne
              simp only [List.cons_append]
              rw [hrest]
            simp only [coerceToken, hpi, hd]
            rw [if_neg hcond]

/-- Witness for C5: `-12` coerces to the integer it denotes and the
non-numeric, unquoted token `bar` coerces to the plain string `bar`. -/
theorem coerceToken_int_or_str_instance :
    coerceToken "-12" = .int (intLitVal "-12") ∧
    coerceToken "bar" = .str "bar" := by
  constructor
  · exact (coerceToken_int_or_str "-12").1
      ⟨['-'], ['1', '2'], Or.inr (Or.inl rfl), by decide, by decide, rfl⟩
  · refine (coerceToken_int_or_str "bar").2 ?_ ?_
    · rintro ⟨sgn, ds, hsgn, hne, hdig, hdata⟩
      have hbar : "bar".data = ['b', 'a', 'r'] := rfl
      rw [hbar] at hdata
      rcases hsgn with h | h | h <;> subst h
      · simp only [List.nil_append] at hdata
        subst hdata
        exact absurd (hdig 'b' (by decide)) (by decide)
      · simp only [List.cons_append, List.nil_append] at hdata
        injection hdata with h1 h2
        exact absurd h1 (by decide)
      · simp only [List.cons_append, List.nil_append] at hdata
        injection hdata with h1 h2
        exact absurd h1 (by decide)
    · rintro ⟨q, mid, hq, hdata⟩
      have hbar : "bar".data = ['b', 'a', 'r'] := rfl
      rw [hbar] at hdata
      injection hdata with h1 h2
      rcases hq with h | h <;> rw [h] at h1 <;> exact absurd h1 (by decide)

/-- C6: a token delimited by a single pair of matching quote characters is
coerced by stripping exactly the outer delimiters and returning the enclosed
text verbatim, with no escape processing; in particular the raw value
`"o=k"` of the test configuration resolves to the literal string `o=k` with
the embedded `=` preserved. -/
theorem coerceToken_quoted :
    (∀ mid : List Char,
      coerceToken (String.mk ('"' :: (mid ++ ['"']))) = .str (String.mk mid) ∧
      coerceToken (String.mk ('\'' :: (mid ++ ['\'']))) = .str (String.mk mid)) ∧
    get env1 mergedOne "one" "st" = .ok (.scalar (.str "o=k")) := by
  have key : ∀ (q : Char) (mid : List Char), isQuoteChar q → ¬q.isDigit →
      q ≠ '-' → q ≠ '+' →
      coerceToken (String.mk (q :: (mid ++ [q]))) = .str (String.mk mid) := by
    intro q mid hq hqd hqm hqp
    have hpi : parseInt? (String.mk (q :: (mid ++ [q]))) = none := by
      show (if q = '-' then (parseDigits? (mid ++ [q])).map (fun n => -(n : Int))
            else if q = '+' then (parseDigits? (mid ++ [q])).map (fun n => (n : Int))
            else (parseDigits? (q :: (mid ++ [q]))).map (fun n => (n : Int))) = none
      rw [if_neg hqm, if_neg hqp]
      show ((if q.isDigit = true then
          parseDigitsAux (mid ++ [q]) (10 * 0 + (q.toNat - 48))
        else none).map (fun n => (n : Int))) = none
      rw [if_neg hqd]
      rfl
    have hcond : isQuoteChar q ∧ mid ++ [q] ≠ [] ∧
        (mid ++ [q]).getLast? = some q :=
      ⟨hq, by simp, List.getLast?_concat _⟩
    simp only [coerceToken, hpi]
    show (if isQuoteChar q ∧ mid ++ [q] ≠ [] ∧ (mid ++ [q]).getLast? = some q
          then Scalar.str (String.mk (mid ++ [q]).dropLast)
          else Scalar.str (String.mk (q :: (mid ++ [q])))) = .str (String.mk mid)
    rw [if_pos hcond, List.dropLast_concat]
  refine ⟨fun mid => ⟨?_, ?_⟩, rfl⟩
  · exact key '"' mid (Or.inl rfl) (by decide) (by decide) (by decide)
  · exact key '\'' mid (Or.inr rfl) (by decide) (by decide) (by decide)

/-- The flattened mapping produced by `get_map` on the merged test
configuration while `__STUFF__` is set. -/
def mapAllOne : List (String × Value) :=
  [("one.foo", .scalar (.str "bar")),
   ("one.two", .scalar (.str "a")),
   ("one.num", .scalar (.int (-12))),
   ("one.st", .scalar (.str "o=k")),
   ("one.lines", .seq [.int 1, .str "two", .int 3]),
   ("one.env", .scalar (.str "some stuff")),
   ("three.more", .scalar (.str "stuff")),
   ("DEFAULT.extends", .scalar (.str "file_two")),
   ("two.a", .scalar (.str "b"))]

/-- The per-section mapping produced by `get_map` restricted to `one`. -/
def mapSectionOne : List (String × Value) :=
  [("foo", .scalar (.str "bar")),
   ("two", .scalar (.str "a")),
   ("num", .scalar (.int (-12))),
   ("st", .scalar (.str "o=k")),
   ("lines", .seq [.int 1, .str "two", .int 3]),
   ("env", .scalar (.str "some stuff"))]

/-- C7: on the merged test configuration, `get_map` without a section
argument returns exactly one `"section.key"` entry per resolved (section,
key) pair of the merged mapping — its keys, in order, are the dotted names
of those pairs, with no duplicates — and each entry carries the same
coerced, interpolated value that `get` returns for the pair; `get_map`
with a section argument returns the plain-key mapping restricted to that
section, again agreeing with `get`. -/
theorem get_map_flattened :
    get_map env1 mergedOne = .ok mapAllOne ∧
    (mapAllOne.map Prod.fst).Nodup ∧
    mapAllOne.map Prod.fst =
      (dottedPairs mergedOne).map (fun p => p.1 ++ "." ++ p.2) ∧
    (∀ p ∈ dottedPairs mergedOne,
      alookup mapAllOne (p.1 ++ "." ++ p.2) = (get env1 mergedOne p.1 p.2).toOption) ∧
    get_map_section env1 mergedOne "one" = .ok mapSectionOne ∧
    (∀ p ∈ mapSectionOne, (get env1 mergedOne "one" p.1).toOption = some p.2) :=
  ⟨rfl, by decide, by decide, by decide, rfl, by decide⟩

/-- Witness for C7 at the pair `(one, env)`: the flattened map entry under
the dotted name agrees with `get`. -/
theorem get_map_flattened_instance :
    alookup mapAllOne ("one" ++ "." ++ "env") =
      (get env1 mergedOne "one" "env").toOption :=
  get_map_flattened.2.2.2.1 ("one", "env") (by decide)

end Config

namespace Mozilla

/-- The generic backend failure raised by the authentication helpers
(`services.util.BackendError`). -/
inductive BackendError where
  | backendError : BackendError
deriving DecidableEq, Repr

/-- A JSON value, the result of decoding a response body. -/
inductive JsonValue where
  | obj (fields : List (String × JsonValue)) : JsonValue
  | arr (items : List JsonValue) : JsonValue
  | str (s : String) : JsonValue
  | num (n : Int) : JsonValue
  | bool (b : Bool) : JsonValue
  | null : JsonValue

/-- The configuration of `MozillaAuth` relevant to URL generation, embedded
from `MozillaAuth.__init__` in `src/services/auth/mozilla.py`. -/
structure MozillaAuth where
  sreg_location : String
  sreg_path : String
  sreg_scheme : String

/-- Embedding of Python `urlparse.urlunparse([scheme, netloc, url, None,
None, None])`: empty params, query and fragment are skipped; the path is
prefixed with `/` when a network location is present. -/
def urlunparse (scheme netloc url : String) : String :=
  let url1 :=
    if netloc ≠ "" ∨ (url ≠ "" ∧ String.mk (url.data.take 2) = "//") then
      ("//" ++ netloc) ++
        (if url ≠ "" ∧ String.mk (url.data.take 1) ≠ "/" then "/" ++ url else url)
    else url
  if scheme ≠ "" then scheme ++ ":" ++ url1 else url1

/-- Embedding of `MozillaAuth.generate_url` from
`src/services/auth/mozilla.py` lines 98-106: the locals `path` and the
conditionally assigned `url` are computed and then discarded, because the
final assignment to `url` rebuilds the path from `sreg_path` and `username`
alone before returning. -/
def generate_url (a : MozillaAuth) (username : String)
    (additional_path : Option String) : String :=
  let path := a.sreg_path ++ "/" ++ username
  let _url_dead := additional_path.map (fun ap => path ++ "/" ++ ap)
  urlunparse a.sreg_scheme a.sreg_location (a.sreg_path ++ "/" ++ username)

/-- Embedding of Python `urllib.urlencode` on an ordered item list. -/
def urlencode (data : List (String × String)) : String :=
  String.intercalate "&" (data.map (fun p => p.1 ++ "=" ++ p.2))

/-- Embedding of `MozillaAuth._proxy` from `src/services/auth/mozilla.py`
lines 73-91: the outbound request helper `get_url` and the JSON decoder
`json_loads` are injected; a non-200 status raises the generic backend
error, a 200 status with a nonempty body decodes it as JSON, and a 200
status with an empty body yields the empty mapping. -/
def _proxy
    (get_url : String → String → Option String →
      Nat × List (String × String) × String)
    (json_loads : String → JsonValue)
    (method url : String) (data : Option (List (String × String))) :
    Except BackendError JsonValue :=
  let dataEnc := data.map urlencode
  let r := get_url url method dataEnc
  let status := r.1
  let body := r.2.2
  if status ≠ 200 then .error .backendError
  else if body ≠ "" then .ok (json_loads body)
  else .ok (.obj [])

/-- Python `'success' in result` on a decoded JSON object. -/
def jsonHasKey : JsonValue → String → Bool
  | .obj fields, k => fields.any (fun p => p.1 == k)
  | _, _ => false

/-- An observable interaction of `verify_reset_code` with the outside world:
a username lookup in the directory, or an HTTP request to the account
service. -/
inductive AuthAction where
  | lookupUsername (user_id : String) : AuthAction
  | httpRequest (method url : String) (payload : List (String × String)) :
      AuthAction
deriving DecidableEq

/-- Embedding of `MozillaAuth.verify_reset_code` from
`src/services/auth/mozilla.py` lines 131-150, instrumented with the list of
external interactions it performs; `check_reset_code`, `_get_username` and
the account-service response are injected. -/
def verify_reset_code (a : MozillaAuth) (check_reset_code : String → Bool)
    (get_username : String → String)
    (proxy_oracle : String → String → List (String × String) →
      Except BackendError JsonValue)
    (user_id code : String) :
    Except BackendError Bool × List AuthAction :=
  if check_reset_code code = false then (.ok false, [])
  else
    let username := get_username user_id
    let payload := [("reset_code", code)]
    let url := generate_url a username (some "verify_password_reset")
    match proxy_oracle "POST" url payload with
    | .error e =>
        (.error e, [.lookupUsername user_id, .httpRequest "POST" url payload])
    | .ok res =>
        (.ok (jsonHasKey res "success"),
          [.lookupUsername user_id, .httpRequest "POST" url payload])

/-- C8: contrary to the documented templated URL
`scheme://host/path/username[/suffix]`, `generate_url` ignores its
`additional_path` argument entirely — the suffixed path is assigned to a
local that is immediately overwritten — so every generated URL ends at the
username; at a concrete instance the suffix `reset_code` is dropped. -/
theorem generate_url_drops_suffix :
    (∀ (a : MozillaAuth) (username suffix_path : String),
      generate_url a username (some suffix_path) =
        generate_url a username none) ∧
    generate_url ⟨"node", "sreg", "https"⟩ "alice" (some "reset_code") =
      "https://node/sreg/alice" :=
  ⟨fun _ _ _ => rfl, rfl⟩

/-- C9: `_proxy` raises the generic backend error on any status other than
200; on a 200 status it decodes a nonempty body as JSON and returns the
empty mapping for an empty body. -/
theorem _proxy_status_handling
    (get_url : String → String → Option String →
      Nat × List (String × String) × String)
    (json_loads : String → JsonValue) (method url : String)
    (data : Option (List (String × String)))
    (st : Nat) (hs : List (String × String)) (body : String)
    (h : get_url url method (data.map urlencode) = (st, hs, body)) :
    (st ≠ 200 → _proxy get_url json_loads method url data =
      .error .backendError) ∧
    (st = 200 → body ≠ "" → _proxy get_url json_loads method url data =
      .ok (json_loads body)) ∧
    (st = 200 → body = "" → _proxy get_url json_loads method url data =
      .ok (.obj [])) := by
  refine ⟨fun hst => ?_, fun hst hb => ?_, fun hst hb => ?_⟩
  · simp [_proxy, h, hst]
  · simp [_proxy, h, hst, hb]
  · simp [_proxy, h, hst, hb]

/-- Witness for C9: a 404 response raises the backend error, a 200 response
with body `x` decodes it, and a 200 response with an empty body yields the
empty mapping. -/
theorem _proxy_status_handling_instance :
    _proxy (fun _ _ _ => (404, [], "x")) JsonValue.str "GET" "u" none =
      .error .backendError ∧
    _proxy (fun _ _ _ => (200, [], "x")) JsonValue.str "GET" "u" none =
      .ok (JsonValue.str "x") ∧
    _proxy (fun _ _ _ => (200, [], "")) JsonValue.str "GET" "u" none =
      .ok (.obj []) :=
  ⟨(_proxy_status_handling _ JsonValue.str "GET" "u" none 404 [] "x" rfl).1
      (by decide),
    (_proxy_status_handling _ JsonValue.str "GET" "u" none 200 [] "x" rfl).2.1
      rfl (by decide),
    (_proxy_status_handling _ JsonValue.str "GET" "u" none 200 [] "" rfl).2.2
      rfl rfl⟩

/-- C10: whenever the reset code fails the local validity check,
`verify_reset_code` returns `False` at once and performs no username lookup
and no HTTP request — its interaction trace is empty, for every
configuration, username resolver and account-service behaviour. -/
theorem verify_reset_code_invalid_frame (a : MozillaAuth)
    (check_reset_code : String → Bool) (get_username : String → String)
    (proxy_oracle : String → String → List (String × String) →
      Except BackendError JsonValue)
    (user_id code : String) (h : check_reset_code code = false) :
    verify_reset_code a check_reset_code get_username proxy_oracle
      user_id code = (.ok false, []) := by
  simp [verify_reset_code, h]

/-- Witness for C10 at a concrete instance: an always-rejecting checker
yields `False` with an empty interaction trace. -/
theorem verify_reset_code_invalid_frame_instance :
    verify_reset_code ⟨"node", "sreg", "https"⟩ (fun _ => false)
      (fun _ => "alice") (fun _ _ _ => .ok (.obj [])) "uid7" "not-a-code" =
      (.ok false, []) :=
  verify_reset_code_invalid_frame _ _ _ _ "uid7" "not-a-code" rfl

end Mozilla
